import Mathlib

/-!
Verification of the CSS cascade-resolution and inlining engine of
`build_from_template.py` (class `CSSInliner`, together with its helpers).

The Python code is shallowly embedded: every definition below mirrors one
Python function or method.  Python dicts (which preserve insertion order)
are modelled as ordered association lists with last-assignment-wins update;
Python's `list` used as the ancestor stack is modelled as a Lean `List`
with the *end* of the list as the top of the stack (matching `append`,
`pop`, `[-1]` in the source).  Strings are Lean `String`s; string
primitives (`split`, `strip`, `in`, `count`, `replace`) are embedded as
structural recursions over `String.data` so that everything evaluates by
kernel reduction.  All separators used by the source are single characters,
for which Python `str.split(sep)` is splitting at every occurrence.
-/

namespace CssInline

/-! ### Python string primitives -/

/-- Python `c in s` for a single character. -/
def hasCh (c : Char) (s : String) : Bool :=
  s.data.contains c

/-- Python `s.count(c)` for a single character. -/
def countCh (c : Char) (s : String) : Nat :=
  s.data.count c

/-- Auxiliary for `pyStrip`: drop leading and trailing whitespace. -/
def stripChars (l : List Char) : List Char :=
  ((l.dropWhile Char.isWhitespace).reverse.dropWhile Char.isWhitespace).reverse

/-- Python `s.strip()` (ASCII whitespace suffices for the CSS and HTML
fragments handled here). -/
def pyStrip (s : String) : String :=
  String.mk (stripChars s.data)

/-- Auxiliary for `pySplitCh`: `cur` is the current piece, reversed. -/
def splitChAux (c : Char) : List Char → List Char → List String
  | [], cur => [String.mk cur.reverse]
  | x :: rest, cur =>
    if x = c then String.mk cur.reverse :: splitChAux c rest []
    else splitChAux c rest (x :: cur)

/-- Python `s.split(c)` for a single-character separator: split at every
occurrence, keeping empty pieces. -/
def pySplitCh (c : Char) (s : String) : List String :=
  splitChAux c s.data []

/-- Auxiliary for `pySplitFirst`. -/
def splitFirstAux (c : Char) : List Char → List Char → String × String
  | [], acc => (String.mk acc.reverse, "")
  | x :: rest, acc =>
    if x = c then (String.mk acc.reverse, String.mk rest)
    else splitFirstAux c rest (x :: acc)

/-- Python `s.split(c, 1)` as a pair `(before, after)`, for a separator
that occurs in `s` (every use in the source is guarded by `c in s`). -/
def pySplitFirst (c : Char) (s : String) : String × String :=
  splitFirstAux c s.data []

/-- Python `str.split()` with no separator: split on runs of whitespace,
dropping empty tokens.  Auxiliary: `cur` is the current token, reversed. -/
def wordsAux : List Char → List Char → List String
  | [], cur => if cur = [] then [] else [String.mk cur.reverse]
  | c :: rest, cur =>
    if c.isWhitespace then
      if cur = [] then wordsAux rest []
      else String.mk cur.reverse :: wordsAux rest []
    else wordsAux rest (c :: cur)

/-- Python `s.split()` (whitespace words). -/
def pySplitWs (s : String) : List String :=
  wordsAux s.data []

/-! ### Python ordered dictionaries (`dict`) as association lists -/

/-- One CSS declaration block / one Python `dict[str, str]`:
an ordered list of key-value pairs. -/
abbrev Decls := List (String × String)

/-- Association-list lookup (first pair with the given key). -/
def dlookup (k : String) : Decls → Option String
  | [] => none
  | p :: d => if p.1 = k then some p.2 else dlookup k d

/-- Python `d[k] = v` on an ordered dict: if the key is present its value is
replaced in place, otherwise the pair is appended at the end. -/
def dictInsert (d : Decls) (k v : String) : Decls :=
  if (dlookup k d).isSome then
    d.map (fun p => if p.1 = k then (p.1, v) else p)
  else
    d ++ [(k, v)]

/-- Python `d.update(e)`: assign every pair of `e` into `d`, in order. -/
def dictUpdate (d e : Decls) : Decls :=
  e.foldl (fun acc p => dictInsert acc p.1 p.2) d

/-- First-some choice on options (used to state lookup lemmas). -/
def oor : Option String → Option String → Option String
  | some v, _ => some v
  | none, y => y

/-- Value of the *last* pair of `d` carrying key `k` (what a Python dict
built by successive assignments from `d` would hold at `k`). -/
def lookupLast (d : Decls) (k : String) : Option String :=
  dlookup k d.reverse

/-! ### Attribute lists -/

/-- The attribute list HTMLParser hands over: `(name, value)` pairs. -/
abbrev Attrs := List (String × String)

/-- Python `dict(attrs).get(k)`: with duplicate attribute names the later
pair wins, hence lookup on the reversed list. -/
def attrsGet (attrs : Attrs) (k : String) : Option String :=
  dlookup k attrs.reverse

/-! ### Specificity (`CSSInliner._calculate_specificity`) -/

/-- Specificity triple `(ids, classes, elements)`. -/
abbrev SpecT := Nat × Nat × Nat

/-- Python tuple comparison `a < b` (lexicographic). -/
def specLtB (a b : SpecT) : Bool :=
  if a.1 ≠ b.1 then a.1 < b.1
  else if a.2.1 ≠ b.2.1 then a.2.1 < b.2.1
  else a.2.2 < b.2.2

/-- Python tuple comparison `a <= b` (lexicographic). -/
def specLeB (a b : SpecT) : Bool :=
  specLtB a b || a = b

/-- Python `max` over tuples: keep the current value unless the next one is
strictly greater. -/
def specMax (a b : SpecT) : SpecT :=
  if specLtB a b then b else a

/-- `selector.replace('>', ' ')`. -/
def gtToSpace (s : String) : String :=
  String.mk (s.data.map (fun c => if c = '>' then ' ' else c))

/-- Whether the token starts with an ASCII letter, i.e. the regex
`^([a-zA-Z][a-zA-Z0-9]*)` matches at the start of the token. -/
def startsAlpha (s : String) : Bool :=
  match s.data with
  | [] => false
  | c :: _ => c.isAlpha

/-- Specificity of one comma-free selector: replace `>` by spaces, split on
whitespace, and over the resulting tokens count `#` as id weight, `.` and
`[` as class weight, and a leading type name as one element weight. -/
def calcSpecNoComma (sel : String) : SpecT :=
  (pySplitWs (gtToSpace sel)).foldl
    (fun acc part =>
      (acc.1 + countCh '#' part,
       acc.2.1 + countCh '.' part + countCh '[' part,
       acc.2.2 + (if startsAlpha part then 1 else 0)))
    (0, 0, 0)

/-- `CSSInliner._calculate_specificity`: for a comma-separated selector
group take the maximum specificity over the (stripped) branches. -/
def calcSpec (sel : String) : SpecT :=
  if hasCh ',' sel then
    match (pySplitCh ',' sel).map (fun s => calcSpecNoComma (pyStrip s)) with
    | [] => (0, 0, 0)
    | x :: xs => xs.foldl specMax x
  else calcSpecNoComma sel

/-! ### Element contexts and the ancestor stack -/

/-- `(tag, id, classes)` as pushed on `self.element_stack`. -/
abbrev Elem := String × String × List String

/-- The ancestor stack; the *last* element is the top (current element),
mirroring the Python list with `append`/`pop`/`[-1]`. -/
abbrev Stack := List Elem

/-! ### Simple selectors (`CSSInliner._matches_simple_selector`) -/

/-- `CSSInliner._matches_simple_selector`. -/
def matchesSimpleSelector (sel tag eid : String) (classes : List String) : Bool :=
  if hasCh '.' sel then
    let parts := pySplitCh '.' sel
    let tagPart := parts.headD ""
    let classParts := (parts.drop 1).filter (fun p => p ≠ "")
    if tagPart ≠ "" && tagPart ≠ tag then false
    else classParts.all (fun c => classes.contains c)
  else if sel.data.headD ' ' = '#' then
    eid = String.mk (sel.data.drop 1)
  else if hasCh '#' sel then
    let parts := pySplitFirst '#' sel
    tag = parts.1 && eid = parts.2
  else
    sel = tag

/-! ### Combinator chains (`CSSInliner._matches_descendant_selector`) -/

/-- Result of the character-scanning loop that splits a combinator chain
into simple-selector parts and the combinators between them. -/
structure ChainParse where
  parts : List String
  combs : List Char
deriving Repr, DecidableEq

/-- The `while i < len(selector)` loop of `_matches_descendant_selector`,
with state `(parts, combinators, current_part)`.  Mirrors the source
faithfully, including the quirk that on a space the current part is only
flushed when its stripped text is nonempty, and that a space combinator is
recorded only when `len(parts) > len(combinators) + 1`. -/
def parseChainAux : List Char → List String → List Char → List Char → ChainParse
  | [], parts, combs, cur =>
    if cur ≠ [] then
      let p := pyStrip (String.mk cur)
      if p ≠ "" then ⟨parts ++ [p], combs⟩ else ⟨parts, combs⟩
    else ⟨parts, combs⟩
  | c :: rest, parts, combs, cur =>
    if c = '>' then
      let parts' := if cur ≠ [] then parts ++ [pyStrip (String.mk cur)] else parts
      parseChainAux rest parts' (combs ++ ['>']) []
    else if c = ' ' then
      if cur ≠ [] then
        let p := pyStrip (String.mk cur)
        if p ≠ "" then
          let parts' := parts ++ [p]
          let combs' := if parts'.length > combs.length + 1 then combs ++ [' '] else combs
          parseChainAux rest parts' combs' []
        else parseChainAux rest parts combs cur
      else parseChainAux rest parts combs cur
    else parseChainAux rest parts combs (cur ++ [c])

/-- Parse a combinator chain into parts and combinators. -/
def parseChain (sel : String) : ChainParse :=
  parseChainAux sel.data [] [] []

/-- The pairs `(parts[i], combinator_i)` for `i = len(parts)-2 .. 0`, where
`combinator_i = combinators[i] if i < len(combinators) else ' '` — the
sequence the backward `for` loop of the source walks. -/
def chainPairs (parts : List String) (combs : List Char) : List (String × Char) :=
  ((List.range (parts.length - 1)).reverse).map
    (fun i => (parts.getD i "", combs.getD i ' '))

/-- The backward walk of `_matches_descendant_selector` over the remaining
selector parts.  `ancs` lists the stack entries from `element_stack[stack_idx]`
downward, nearest first (i.e. `(element_stack.take (stack_idx+1)).reverse`);
moving `stack_idx` down by one is taking the tail.  A child combinator `>`
must match the next entry exactly; a descendant combinator scans onward
(up the document tree) until a match, without backtracking. -/
def chainLoop : List (String × Char) → List Elem → Bool
  | [], _ => true
  | (_, _) :: _, [] => false
  | (p, comb) :: rest, e :: above =>
    if comb = '>' then
      if matchesSimpleSelector p e.1 e.2.1 e.2.2 then chainLoop rest above else false
    else
      if matchesSimpleSelector p e.1 e.2.1 e.2.2 then chainLoop rest above
      else chainLoop ((p, comb) :: rest) above

/-- `CSSInliner._matches_descendant_selector`: parse the chain, require the
chain to be no longer than the stack, match the last part against the
current element (stack top) and walk the remaining parts backward from
`stack_idx = len(stack) - 2`. -/
def matchesDescendantSelector (sel : String) (stack : Stack) : Bool :=
  let cp := parseChain sel
  if cp.parts.length > stack.length then false
  else
    match stack.getLast?, cp.parts.getLast? with
    | some e, some lastPart =>
      if matchesSimpleSelector lastPart e.1 e.2.1 e.2.2 then
        chainLoop (chainPairs cp.parts cp.combs) stack.dropLast.reverse
      else false
    | _, _ => false

/-! ### Full selector matching (`CSSInliner._selector_matches`) -/

/-- The body of `_selector_matches` after the comma split: a selector
containing a space is a combinator chain, otherwise it is matched as a
simple selector against the stack top (false on an empty stack). -/
def selectorMatchesNoComma (sel : String) (stack : Stack) : Bool :=
  if hasCh ' ' sel then matchesDescendantSelector sel stack
  else
    match stack.getLast? with
    | none => false
    | some e => matchesSimpleSelector sel e.1 e.2.1 e.2.2

/-- `CSSInliner._selector_matches`: strip, then a comma-separated selector
group matches if any stripped branch matches. -/
def selectorMatches (sel : String) (stack : Stack) : Bool :=
  let sel := pyStrip sel
  if hasCh ',' sel then
    (pySplitCh ',' sel).any (fun s => selectorMatchesNoComma (pyStrip s) stack)
  else selectorMatchesNoComma sel stack

/-! ### The cascade: collecting, sorting and folding matching rules
(`CSSInliner.handle_starttag`, lines 216–229) -/

/-- The rule list handed to `CSSInliner.__init__`: ordered
`(selector, declarations)` pairs. -/
abbrev Rules := List (String × Decls)

/-- The `matching_rules` list built by `handle_starttag`: for each rule
whose selector matches, the triple `(specificity, selector, styles)`,
in source order. -/
def matchingRules (rules : Rules) (stack : Stack) : List (SpecT × String × Decls) :=
  rules.filterMap
    (fun r => if selectorMatches r.1 stack then some (calcSpec r.1, r.1, r.2) else none)

/-- The comparison used by `matching_rules.sort(key=lambda x: x[0])`:
compare the specificity components. -/
def matchLe (a b : SpecT × String × Decls) : Prop :=
  specLeB a.1 b.1 = true

instance : DecidableRel matchLe :=
  fun x y => inferInstanceAs (Decidable (specLeB x.1 y.1 = true))

/-- `applicable_styles`: sort the matching rules by specificity
(Python's `list.sort` is stable; insertion sort is the stable sort) and
fold their declaration dicts together with `update`, so later entries of
the sorted list overwrite earlier ones. -/
def applicableStyles (rules : Rules) (stack : Stack) : Decls :=
  ((List.insertionSort matchLe (matchingRules rules stack)).map
    (fun m => m.2.2)).foldl dictUpdate []

/-! ### Inline-style parsing and merging (`CSSInliner._merge_styles`) -/

/-- The `existing_dict` computation of `_merge_styles`: split the inline
style string on `;`, and for each fragment containing `:` split at the
first `:` and strip both sides.  (For the empty string this loop body
never runs, matching the `if existing_style:` guard.) -/
def parseStyleDecls (s : String) : Decls :=
  (pySplitCh ';' s).foldl
    (fun acc decl =>
      let decl := pyStrip decl
      if hasCh ':' decl then
        let pv := pySplitFirst ':' decl
        dictInsert acc (pyStrip pv.1) (pyStrip pv.2)
      else acc)
    []

/-- Python `'; '.join(...)` over rendered declarations. -/
def joinSep (sep : String) : List String → String
  | [] => ""
  | [x] => x
  | x :: xs => x ++ sep ++ joinSep sep xs

/-- Render a declaration dict as `prop: value` pairs joined by `'; '`. -/
def renderStyles (d : Decls) : String :=
  joinSep "; " (d.map (fun p => p.1 ++ ": " ++ p.2))

/-- The merged dict of `_merge_styles`: `merged = new_styles.copy()`
followed by `merged.update(existing_dict)` — the pre-existing inline
declarations overwrite the stylesheet-derived ones. -/
def mergeStylesDict (existing : String) (newStyles : Decls) : Decls :=
  dictUpdate newStyles (parseStyleDecls existing)

/-- `CSSInliner._merge_styles`: the merged dict, rendered. -/
def mergeStyles (existing : String) (newStyles : Decls) : String :=
  renderStyles (mergeStylesDict existing newStyles)

/-! ### Tag re-serialization and the event handlers -/

/-- `''.join(f' {name}="{value}"' for name, value in attrs)`. -/
def attrsString (attrs : Attrs) : String :=
  String.join (attrs.map (fun p => " " ++ p.1 ++ "=\"" ++ p.2 ++ "\""))

/-- `f'<{tag}{attrs_str}>'`. -/
def renderStartTag (tag : String) (attrs : Attrs) : String :=
  "<" ++ tag ++ attrsString attrs ++ ">"

/-- `f'<{tag}{attrs_str} />'`. -/
def renderStartEndTag (tag : String) (attrs : Attrs) : String :=
  "<" ++ tag ++ attrsString attrs ++ " />"

/-- The guard `tag == 'link' and attrs_dict.get('rel') == 'stylesheet'`. -/
def isStylesheetLink (tag : String) (attrs : Attrs) : Bool :=
  tag = "link" && attrsGet attrs "rel" = some "stylesheet"

/-- The element context pushed by `handle_starttag`: tag name, `id`
attribute (default `''`) and whitespace-split `class` attribute. -/
def elemOf (tag : String) (attrs : Attrs) : Elem :=
  (tag, (attrsGet attrs "id").getD "", pySplitWs ((attrsGet attrs "class").getD ""))

/-- The attribute rebuild of `handle_starttag`: replace the value of every
`style` attribute with the merged style, appending `('style', merged)`
when no `style` attribute was present. -/
def rebuildAttrs (attrs : Attrs) (merged : String) : Attrs :=
  let replaced := attrs.map (fun p => if p.1 = "style" then (p.1, merged) else p)
  if attrs.any (fun p => p.1 = "style") then replaced else attrs ++ [("style", merged)]

/-- The non-link body of `handle_starttag`: push the element context,
compute the applicable styles, and (only when some rule applied — Python's
`if applicable_styles:`) merge with the pre-existing inline style and
rebuild the attribute list.  Returns the new stack and the attributes of
the re-serialized tag. -/
def starttagResult (rules : Rules) (stack : Stack) (tag : String) (attrs : Attrs) :
    Stack × Attrs :=
  let stack' := stack ++ [elemOf tag attrs]
  let appl := applicableStyles rules stack'
  if appl ≠ [] then
    (stack', rebuildAttrs attrs (mergeStyles ((attrsGet attrs "style").getD "") appl))
  else (stack', attrs)

/-- Python `s.replace(c, rep)` for a single-character pattern. -/
def replCh (c : Char) (rep : List Char) (l : List Char) : List Char :=
  (l.map (fun x => if x = c then rep else [x])).flatten

/-- The escaping of `handle_data`:
`data.replace('&','&amp;').replace('<','&lt;').replace('>','&gt;')`. -/
def escapeList (l : List Char) : List Char :=
  replCh '>' ("&gt;").data (replCh '<' ("&lt;").data (replCh '&' ("&amp;").data l))

/-- `handle_data`'s output chunk. -/
def escapeData (s : String) : String :=
  String.mk (escapeList s.data)

/-- Character-wise view of the three chained replacements of
`handle_data` (the replacements do not interfere: the entities introduced
for `&` contain no `<` or `>`). -/
def escChar (c : Char) : List Char :=
  if c = '&' then ("&amp;").data
  else if c = '<' then ("&lt;").data
  else if c = '>' then ("&gt;").data
  else [c]

/-- The structural events `html.parser.HTMLParser` feeds the engine
(§2 of the design: open tag, close tag, self-closing tag, text, entity
reference, character reference, comment, declaration). -/
inductive HEvent where
  | startTag (tag : String) (attrs : Attrs)
  | endTag (tag : String)
  | startEndTag (tag : String) (attrs : Attrs)
  | dataText (s : String)
  | entityRef (name : String)
  | charRef (name : String)
  | commentEv (s : String)
  | declEv (s : String)
deriving Repr, DecidableEq

/-- One event step of `CSSInliner`: the handler for each event kind,
returning the new ancestor stack and the output chunks appended to
`self.output`.  Mirrors `handle_starttag`, `handle_endtag`,
`handle_startendtag`, `handle_data`, `handle_entityref`, `handle_charref`,
`handle_comment` and `handle_decl`. -/
def step (rules : Rules) (stack : Stack) : HEvent → Stack × List String
  | .startTag tag attrs =>
    if isStylesheetLink tag attrs then (stack, [])
    else
      let r := starttagResult rules stack tag attrs
      (r.1, [renderStartTag tag r.2])
  | .endTag tag =>
    if tag = "link" then (stack, [])
    else
      let stack' :=
        match stack.getLast? with
        | some e => if e.1 = tag then stack.dropLast else stack
        | none => stack
      (stack', ["</" ++ tag ++ ">"])
  | .startEndTag tag attrs =>
    if isStylesheetLink tag attrs then (stack, [])
    else (stack, [renderStartEndTag tag attrs])
  | .dataText s => (stack, [escapeData s])
  | .entityRef n => (stack, ["&" ++ n ++ ";"])
  | .charRef n => (stack, ["&#" ++ n ++ ";"])
  | .commentEv s => (stack, ["<!--" ++ s ++ "-->"])
  | .declEv s => (stack, ["<!" ++ s ++ ">"])

/-- Feed a list of events from a given stack state, collecting output
chunks in order (the engine's single forward scan). -/
def runFrom (rules : Rules) (stack : Stack) : List HEvent → Stack × List String
  | [] => (stack, [])
  | e :: es =>
    let r := step rules stack e
    let rest := runFrom rules r.1 es
    (rest.1, r.2 ++ rest.2)

/-- `CSSInliner.get_output()` after feeding `events` to a fresh inliner:
the rewritten document text. -/
def inlineOutput (rules : Rules) (events : List HEvent) : String :=
  String.join (runFrom rules [] events).2

/-! ### The structural events of the engine's own output
(for the idempotence property) -/

/-- Modelled from the spec: the engine's event source (the external HTML
tokenizer of §6, not part of this repository's sources) re-tokenizes
serialized text into data and entity-reference events; text produced by
the engine only contains the entities `&amp;`, `&lt;` and `&gt;`
introduced by its own escaping. -/
def tokText : List Char → List HEvent
  | [] => []
  | c :: rest =>
    if c = '&' ∧ rest.take 4 = ("amp;").data then .entityRef "amp" :: tokText (rest.drop 4)
    else if c = '&' ∧ rest.take 3 = ("lt;").data then .entityRef "lt" :: tokText (rest.drop 3)
    else if c = '&' ∧ rest.take 3 = ("gt;").data then .entityRef "gt" :: tokText (rest.drop 3)
    else .dataText (String.mk [c]) :: tokText rest
termination_by l => l.length
decreasing_by all_goals (simp [List.length_drop]; try omega)

/-- The structural events making up the output a step of the engine emits:
the same state transition as `step`, with each output chunk replaced by
the events it re-tokenizes to (tags, comments, entity and character
references re-parse to themselves; escaped text re-tokenizes via
`tokText`; dropped stylesheet links and `</link>` tags contribute no
events). -/
def stepEvents (rules : Rules) (stack : Stack) : HEvent → Stack × List HEvent
  | .startTag tag attrs =>
    if isStylesheetLink tag attrs then (stack, [])
    else
      let r := starttagResult rules stack tag attrs
      (r.1, [.startTag tag r.2])
  | .endTag tag =>
    if tag = "link" then (stack, [])
    else
      let stack' :=
        match stack.getLast? with
        | some e => if e.1 = tag then stack.dropLast else stack
        | none => stack
      (stack', [.endTag tag])
  | .startEndTag tag attrs =>
    if isStylesheetLink tag attrs then (stack, [])
    else (stack, [.startEndTag tag attrs])
  | .dataText s => (stack, tokText (escapeList s.data))
  | .entityRef n => (stack, [.entityRef n])
  | .charRef n => (stack, [.charRef n])
  | .commentEv s => (stack, [.commentEv s])
  | .declEv s => (stack, [.declEv s])

/-- Fold `stepEvents` over an event list. -/
def runEventsFrom (rules : Rules) (stack : Stack) : List HEvent → Stack × List HEvent
  | [] => (stack, [])
  | e :: es =>
    let r := stepEvents rules stack e
    let rest := runEventsFrom rules r.1 es
    (rest.1, r.2 ++ rest.2)

/-- The structural events of the rewritten document `inlineOutput rules events`. -/
def outputEvents (rules : Rules) (events : List HEvent) : List HEvent :=
  (runEventsFrom rules [] events).2

/-- The source text denoting one structural event (the exact substring of
the document the event was tokenized from). -/
def renderSource : HEvent → String
  | .startTag tag attrs => renderStartTag tag attrs
  | .endTag tag => "</" ++ tag ++ ">"
  | .startEndTag tag attrs => renderStartEndTag tag attrs
  | .dataText s => s
  | .entityRef n => "&" ++ n ++ ";"
  | .charRef n => "&#" ++ n ++ ";"
  | .commentEv s => "<!--" ++ s ++ "-->"
  | .declEv s => "<!" ++ s ++ ">"

/-- Events on which the engine acts as pure re-serialization: no
stylesheet-link tags, no `</link>` tags, and text free of `&`, `<`, `>`. -/
def cleanEvent : HEvent → Prop
  | .startTag tag attrs => ¬ isStylesheetLink tag attrs = true
  | .endTag tag => tag ≠ "link"
  | .startEndTag tag attrs => ¬ isStylesheetLink tag attrs = true
  | .dataText s => hasCh '&' s = false ∧ hasCh '<' s = false ∧ hasCh '>' s = false
  | _ => True

/-- An open or self-closing stylesheet-link tag event (the ones the engine
drops). -/
def isSSLinkEvent : HEvent → Bool
  | .startTag tag attrs => isStylesheetLink tag attrs
  | .startEndTag tag attrs => isStylesheetLink tag attrs
  | _ => false

/-! ### Vocabulary for stating the cascade-order property -/

/-- An entry of the `matching_rules` list: `(specificity, selector, styles)`. -/
abbrev MatchT := SpecT × String × Decls

/-- Strict order on (specificity, source position) pairs: higher
specificity wins, ties are broken by later source position. -/
def posKeyLt (a b : SpecT × Nat) : Prop :=
  (specLtB a.1 b.1 || (a.1 = b.1 && decide (a.2 < b.2))) = true

instance : DecidableRel posKeyLt :=
  fun x y =>
    inferInstanceAs (Decidable ((specLtB x.1 y.1 || (x.1 = y.1 && decide (x.2 < y.2))) = true))

/-- The sort comparison lifted to position-annotated match entries. -/
def enumLe (a b : Nat × MatchT) : Prop :=
  specLeB a.2.1 b.2.1 = true

instance : DecidableRel enumLe :=
  fun x y => inferInstanceAs (Decidable (specLeB x.2.1 y.2.1 = true))

/-- Total order on position-annotated match entries: by specificity, ties
broken by source position (what a stable sort by specificity realizes on a
position-ordered list). -/
def enumLexLe (a b : Nat × MatchT) : Prop :=
  (specLtB a.2.1 b.2.1 || (a.2.1 = b.2.1 && decide (a.1 ≤ b.1))) = true

instance : DecidableRel enumLexLe :=
  fun x y =>
    inferInstanceAs
      (Decidable ((specLtB x.2.1 y.2.1 || (x.2.1 = y.2.1 && decide (x.1 ≤ y.1))) = true))

/-- First bound value over a list of declaration dicts (used to describe
the result of folding `update` over the sorted match list). -/
def firstSome (f : Decls → Option String) : List Decls → Option String
  | [] => none
  | e :: es => oor (f e) (firstSome f es)

/-! ## Lemmas on the ordered-dict model -/

theorem oor_assoc (a b c : Option String) : oor (oor a b) c = oor a (oor b c) := by
  cases a <;> cases b <;> simp [oor]

theorem oor_none_left (a : Option String) : oor none a = a := rfl

theorem oor_none_right (a : Option String) : oor a none = a := by
  cases a <;> rfl

theorem dlookup_append (k : String) (d1 d2 : Decls) :
    dlookup k (d1 ++ d2) = oor (dlookup k d1) (dlookup k d2) := by
  induction d1 with
  | nil => simp [dlookup, oor]
  | cons p d ih => by_cases h : p.1 = k <;> simp [dlookup, h, ih, oor]

theorem dlookup_mapReplace (d : Decls) (k v k' : String) :
    dlookup k' (d.map (fun p => if p.1 = k then (p.1, v) else p))
      = if k' = k then (dlookup k d).map (fun _ => v) else dlookup k' d := by
  induction d with
  | nil => simp [dlookup]
  | cons p d ih =>
    by_cases hpk : p.1 = k
    · subst hpk
      by_cases hk' : k' = p.1
      · subst hk'
        simp [dlookup]
      · simp [dlookup, hk', show ¬ p.1 = k' from fun h => hk' h.symm, ih]
    · by_cases hp' : p.1 = k' <;> by_cases hk' : k' = k <;> simp_all [dlookup]

theorem dlookup_dictInsert (d : Decls) (k v k' : String) :
    dlookup k' (dictInsert d k v) = if k' = k then some v else dlookup k' d := by
  unfold dictInsert
  by_cases h : (dlookup k d).isSome
  · rw [if_pos h, dlookup_mapReplace]
    by_cases hk : k' = k
    · obtain ⟨w, hw⟩ := Option.isSome_iff_exists.mp h
      simp [hk, hw]
    · simp [hk]
  · rw [if_neg h, dlookup_append]
    have hn : dlookup k d = none := Option.not_isSome_iff_eq_none.mp h
    by_cases hk : k' = k
    · simp [hk, hn, oor, dlookup]
    · cases hd : dlookup k' d <;> simp [hk, hd, oor, dlookup, Ne.symm hk]

theorem dlookup_eq_none_iff (k : String) (d : Decls) :
    dlookup k d = none ↔ k ∉ d.map Prod.fst := by
  induction d with
  | nil => simp [dlookup]
  | cons p d ih => by_cases h : p.1 = k <;> simp [dlookup, h, ih, eq_comm (a := k)]

theorem dlookup_isSome_iff (k : String) (d : Decls) :
    (dlookup k d).isSome = true ↔ k ∈ d.map Prod.fst := by
  induction d with
  | nil => simp [dlookup]
  | cons p d ih => by_cases h : p.1 = k <;> simp [dlookup, h, ih, eq_comm (a := k)]

theorem keys_dictInsert (d : Decls) (k v : String) :
    (dictInsert d k v).map Prod.fst
      = if (dlookup k d).isSome then d.map Prod.fst else d.map Prod.fst ++ [k] := by
  unfold dictInsert
  split
  · rw [List.map_map]
    · congr 1
      funext p
      by_cases h : p.1 = k <;> simp [h]
  · simp

theorem nodupKeys_dictInsert (d : Decls) (k v : String)
    (h : (d.map Prod.fst).Nodup) : ((dictInsert d k v).map Prod.fst).Nodup := by
  rw [keys_dictInsert]
  split
  · exact h
  · next hn =>
    have hk : k ∉ d.map Prod.fst :=
      (dlookup_eq_none_iff k d).mp (Option.not_isSome_iff_eq_none.mp hn)
    simp [List.nodup_append, h, hk]

theorem dictUpdate_nil (d : Decls) : dictUpdate d [] = d := rfl

theorem dictUpdate_cons (d : Decls) (kv : String × String) (e : Decls) :
    dictUpdate d (kv :: e) = dictUpdate (dictInsert d kv.1 kv.2) e := rfl

theorem lookupLast_cons (kv : String × String) (e : Decls) (p : String) :
    lookupLast (kv :: e) p = oor (lookupLast e p) (if kv.1 = p then some kv.2 else none) := by
  simp only [lookupLast, List.reverse_cons, dlookup_append]
  cases h : dlookup p e.reverse <;> simp [oor, dlookup]

theorem dlookup_dictUpdate (p : String) (d e : Decls) :
    dlookup p (dictUpdate d e) = oor (lookupLast e p) (dlookup p d) := by
  induction e generalizing d with
  | nil => simp [dictUpdate_nil, lookupLast, dlookup, oor]
  | cons kv e ih =>
    rw [dictUpdate_cons, ih, dlookup_dictInsert, lookupLast_cons]
    cases hl : lookupLast e p
    · by_cases hk : p = kv.1
      · subst hk
        simp [oor]
      · simp [oor, hk, show ¬ kv.1 = p from fun h => hk h.symm]
    · simp [oor]

theorem nodupKeys_dictUpdate (d e : Decls) (h : (d.map Prod.fst).Nodup) :
    ((dictUpdate d e).map Prod.fst).Nodup := by
  induction e generalizing d with
  | nil => simpa [dictUpdate_nil]
  | cons kv e ih => exact dictUpdate_cons d kv e ▸ ih _ (nodupKeys_dictInsert _ _ _ h)

theorem nodupKeys_lookupLast_eq (d : Decls) (h : (d.map Prod.fst).Nodup) (p : String) :
    lookupLast d p = dlookup p d := by
  induction d with
  | nil => rfl
  | cons kv e ih =>
    rw [lookupLast_cons]
    simp only [List.map_cons, List.nodup_cons] at h
    rw [ih h.2]
    by_cases hk : kv.1 = p
    · have : dlookup p e = none := by
        rw [dlookup_eq_none_iff]
        exact hk ▸ h.1
      simp [dlookup, hk, this, oor]
    · cases hd : dlookup p e <;> simp [dlookup, hk, hd, oor]

theorem dlookup_foldl_dictUpdate (p : String) (d0 : Decls) (ds : List Decls) :
    dlookup p (ds.foldl dictUpdate d0)
      = oor (firstSome (fun e => lookupLast e p) ds.reverse) (dlookup p d0) := by
  induction ds generalizing d0 with
  | nil => simp [firstSome, oor]
  | cons e ds ih =>
    rw [List.foldl_cons, ih, List.reverse_cons]
    have hfs : ∀ l1 l2, firstSome (fun e => lookupLast e p) (l1 ++ l2)
        = oor (firstSome (fun e => lookupLast e p) l1)
            (firstSome (fun e => lookupLast e p) l2) := by
      intro l1 l2
      induction l1 with
      | nil => simp [firstSome, oor]
      | cons x l1 ihl => simp [firstSome, ihl, oor_assoc]
    rw [hfs, dlookup_dictUpdate]
    simp [firstSome, oor_assoc, oor_none_right]

theorem nodupKeys_foldl_dictUpdate (d0 : Decls) (ds : List Decls)
    (h : (d0.map Prod.fst).Nodup) : (((ds.foldl dictUpdate d0)).map Prod.fst).Nodup := by
  induction ds generalizing d0 with
  | nil => simpa
  | cons e ds ih => exact ih _ (nodupKeys_dictUpdate _ _ h)

/-! ## Claim C6: stylesheet-link removal -/

/-- C6: for every input document, no open or self-closing `link` tag whose
`rel` attribute equals `stylesheet` appears in the output of the rewrite
engine: such events produce no output chunk and push nothing onto the
ancestor stack, so processing any event stream equals processing the
stream with all such events deleted. -/
theorem c6_stylesheet_link_removal :
    (∀ (rules : Rules) (stack : Stack) (attrs : Attrs),
        attrsGet attrs "rel" = some "stylesheet" →
          step rules stack (.startTag "link" attrs) = (stack, []) ∧
          step rules stack (.startEndTag "link" attrs) = (stack, [])) ∧
    (∀ (rules : Rules) (stack : Stack) (events : List HEvent),
        runFrom rules stack (events.filter (fun e => ! isSSLinkEvent e))
          = runFrom rules stack events) := by
  constructor
  · intro rules stack attrs h
    constructor <;> simp [step, isStylesheetLink, h]
  · intro rules stack events
    induction events generalizing stack with
    | nil => rfl
    | cons e es ih =>
      by_cases hss : isSSLinkEvent e = true
      · have hstep : step rules stack e = (stack, []) := by
          cases e <;> simp [isSSLinkEvent] at hss <;> simp [step, hss]
        simp [List.filter_cons, hss, runFrom, hstep, ih]
      · simp only [Bool.not_eq_true] at hss
        simp [List.filter_cons, hss, runFrom, ih]

/-- Witness for C6 at a concrete stylesheet link tag. -/
theorem c6_stylesheet_link_removal_witness :
    step ([] : Rules) ([] : Stack)
        (.startTag "link" [("rel", "stylesheet"), ("href", "s.css")]) = ([], []) := by
  exact (c6_stylesheet_link_removal.1 [] []
    [("rel", "stylesheet"), ("href", "s.css")] (by decide)).1

/-! ## Claim C8: mismatched close tags are tolerated -/

/-- C8 counterexample: a `</link>` close tag arriving on an empty stack is
*not* emitted (the handler drops every `</link>`), contradicting the claim
that every mismatched or unmatched close tag is still emitted unchanged. -/
theorem c8_counterexample :
    (step ([] : Rules) ([] : Stack) (.endTag "link")).2 = ([] : List String) ∧
    ([] : List String) ≠ ["</link>"] := by
  exact ⟨rfl, by simp⟩

/-- C8 (amended): for every close-tag event with tag name other than
`link`, a mismatched top of stack or an empty stack leaves the stack
untouched while the close tag is still emitted unchanged, and the stack is
popped exactly when the top entry's tag name equals the closing tag name
(`</link>` close tags are instead dropped entirely, see the
counterexample). -/
theorem c8_amended (rules : Rules) (stack : Stack) (tag : String) (h : tag ≠ "link") :
    (∀ e, stack.getLast? = some e → e.1 ≠ tag →
        step rules stack (.endTag tag) = (stack, ["</" ++ tag ++ ">"])) ∧
    (stack.getLast? = none →
        step rules stack (.endTag tag) = (stack, ["</" ++ tag ++ ">"])) ∧
    (∀ e, stack.getLast? = some e → e.1 = tag →
        step rules stack (.endTag tag) = (stack.dropLast, ["</" ++ tag ++ ">"])) := by
  refine ⟨?_, ?_, ?_⟩
  · intro e he hne
    simp [step, h, he, hne]
  · intro he
    simp [step, h, he]
  · intro e he hm
    simp [step, h, he, hm]

/-- Witness for C8 (amended) at a mismatched close tag on an empty stack. -/
theorem c8_amended_witness :
    step ([] : Rules) ([] : Stack) (.endTag "p") = ([], ["</p>"]) := by
  exact (c8_amended [] [] "p" (by decide)).2.1 rfl

/-! ## Claim C5: self-closing tags -/

/-- C5 counterexample: for the self-closing tag `<div class="x" />` under
the rule `.x { color: red }` the engine emits the tag with its original
attributes and *no* style attribute, although the rule matches (the
applicable style dict is nonempty); the claim's predicted re-serialization
with the merged style attribute differs. -/
theorem c5_counterexample :
    (step [(".x", [("color", "red")])] [] (.startEndTag "div" [("class", "x")])).2
        = ["<div class=\"x\" />"] ∧
    applicableStyles [(".x", [("color", "red")])] [elemOf "div" [("class", "x")]]
        = [("color", "red")] ∧
    "<div class=\"x\" />"
      ≠ renderStartEndTag "div"
          (rebuildAttrs [("class", "x")] (mergeStyles "" [("color", "red")])) := by
  refine ⟨rfl, by decide, by decide⟩

/-- C5 (amended): every self-closing tag that is not a stylesheet link is
re-serialized with its original attributes unchanged — no style
computation or merging is performed — and no ancestor-stack entry is
pushed. -/
theorem c5_amended (rules : Rules) (stack : Stack) (tag : String) (attrs : Attrs)
    (h : ¬ isStylesheetLink tag attrs = true) :
    step rules stack (.startEndTag tag attrs) = (stack, [renderStartEndTag tag attrs]) := by
  simp [step, h]

/-- Witness for C5 (amended) at a concrete self-closing tag. -/
theorem c5_amended_witness :
    step [(".x", [("color", "red")])] [] (.startEndTag "div" [("class", "x")])
      = ([], ["<div class=\"x\" />"]) := by
  exact c5_amended [(".x", [("color", "red")])] [] "div" [("class", "x")] (by decide)

/-! ## Claim C10: non-stylesheet `<link>` entries leak on the stack -/

/-- C10: a non-self-closing `<link>` open tag whose `rel` is not
`stylesheet` pushes a `(link, id, classes)` entry and emits the tag; every
`</link>` close tag is dropped from the output and never pops the stack;
and once a `link` entry is on the stack, no later event removes it (pops
only remove a matching top, and a `link` top could only be removed by a
`</link>`, which returns early), so it participates in all later
descendant matching. -/
theorem c10_link_stack_leak :
    (∀ (rules : Rules) (stack : Stack) (attrs : Attrs),
        ¬ attrsGet attrs "rel" = some "stylesheet" →
          (step rules stack (.startTag "link" attrs)).1 = stack ++ [elemOf "link" attrs] ∧
          (step rules stack (.startTag "link" attrs)).2
            = [renderStartTag "link" (starttagResult rules stack "link" attrs).2]) ∧
    (∀ (rules : Rules) (stack : Stack),
        step rules stack (.endTag "link") = (stack, [])) ∧
    (∀ (rules : Rules) (stack : Stack) (ev : HEvent) (k : Nat) (e : Elem),
        stack.get? k = some e → e.1 = "link" →
          ((step rules stack ev).1).get? k = some e) := by
  refine ⟨?_, ?_, ?_⟩
  · intro rules stack attrs h
    have hss : isStylesheetLink "link" attrs = false := by
      simp [isStylesheetLink, h]
    constructor <;> simp [step, hss, starttagResult] <;> split <;> rfl
  · intro rules stack
    simp [step]
  · intro rules stack ev k e hk hlink
    have hklen : k < stack.length := by
      by_contra hge
      rw [List.get?_eq_none.mpr (Nat.le_of_not_lt hge)] at hk
      exact Option.noConfusion hk
    cases ev with
    | startTag tag attrs =>
      simp only [step]
      split
      · exact hk
      · simp only [starttagResult]
        split <;> · rw [List.get?_append hklen]; exact hk
    | endTag tag =>
      simp only [step]
      split
      · exact hk
      · next htag =>
        cases hlast : stack.getLast? with
        | none => simp only [hlast]; exact hk
        | some top =>
          simp only [hlast]
          split
          · next htop =>
            have hkne : k < stack.length - 1 := by
              by_contra hge
              have hkeq : k = stack.length - 1 := by omega
              have hget : stack.get? k = some top := by
                rw [hkeq, ← List.getLast?_eq_get?]
                exact hlast
              rw [hk] at hget
              have hetop : e = top := Option.some.inj hget
              apply htag
              rw [← htop, ← hetop, hlink]
            rw [List.dropLast_eq_take, List.get?_take hkne]
            exact hk
          · exact hk
    | startEndTag tag attrs =>
      simp only [step]
      split <;> exact hk
    | dataText s => exact hk
    | entityRef n => exact hk
    | charRef n => exact hk
    | commentEv s => exact hk
    | declEv s => exact hk

/-- Witness for C10: a `<link rel="next">` entry pushed by the open tag is
still on the stack after a mismatched close tag and after `</link>`. -/
theorem c10_link_stack_leak_witness :
    (step ([] : Rules) [("link", "", [])] (.endTag "link")).1.get? 0
      = some ("link", "", []) := by
  exact c10_link_stack_leak.2.2 [] [("link", "", [])] (.endTag "link") 0
    ("link", "", []) rfl rfl

/-! ## Claim C4: `>` without surrounding spaces is not a combinator -/

/-- C4 counterexample: with markup `<div class="parent"><a class="child">`
the spaced selector `.parent > .child` matches the anchor but the unspaced
`.parent>.child` does not — contradicting the claim that every selector
containing `>` is evaluated with child-combinator semantics. -/
theorem c4_counterexample :
    selectorMatches ".parent > .child" [("div", "", ["parent"]), ("a", "", ["child"])] = true ∧
    selectorMatches ".parent>.child" [("div", "", ["parent"]), ("a", "", ["child"])] = false := by
  exact ⟨by decide, by decide⟩

/-- C4 (amended): only a selector containing a *space* is evaluated as a
combinator chain; a selector containing `>` but no space is matched as a
simple selector against the current element alone — `.parent>.child` is
read as the class list `parent>`, `child` (the parent is never consulted),
so it matches exactly when the current element carries both of these
literal class names. -/
theorem c4_amended (rest : Stack) (e : Elem) :
    selectorMatches ".parent>.child" (rest ++ [e])
      = (e.2.2.contains "parent>" && e.2.2.contains "child") := by
  show (match (rest ++ [e]).getLast? with
        | none => false
        | some el => matchesSimpleSelector ".parent>.child" el.1 el.2.1 el.2.2) = _
  rw [List.getLast?_concat]
  show List.all ["parent>", "child"] (fun c => e.2.2.contains c) = _
  simp

/-! ## Claim C7: attribute selectors weigh but never gate -/

/-- The class-count component of a comma-free selector's specificity is
the sum over its tokens of the `.`-count plus the `[`-count. -/
theorem calcSpecNoComma_classCount (sel : String) :
    (calcSpecNoComma sel).2.1
      = ((pySplitWs (gtToSpace sel)).map
          (fun part => countCh '.' part + countCh '[' part)).sum := by
  unfold calcSpecNoComma
  generalize pySplitWs (gtToSpace sel) = parts
  suffices h : ∀ (l : List String) (acc : SpecT),
      (l.foldl
        (fun acc part =>
          (acc.1 + countCh '#' part,
           acc.2.1 + countCh '.' part + countCh '[' part,
           acc.2.2 + (if startsAlpha part then 1 else 0))) acc).2.1
        = acc.2.1 + (l.map (fun part => countCh '.' part + countCh '[' part)).sum by
    simpa using h parts (0, 0, 0)
  intro l
  induction l with
  | nil => simp
  | cons part l ih =>
    intro acc
    rw [List.foldl_cons, ih]
    simp only [List.map_cons, List.sum_cons]
    omega

/-- C7: every `[` in a simple-selector token adds one to the class-count
component of the specificity, but attribute selectors are never evaluated
against an element's attributes: a bare attribute selector such as
`[href]` is weighed like a class `(0, 1, 0)` yet falls through to the
type-name comparison and cannot match a normally named tag, and the
matching outcome for an element depends on its attributes only through the
`id` and `class` values. -/
theorem c7_attribute_selector_asymmetry :
    (∀ sel : String, ¬ hasCh ',' sel = true →
        (calcSpec sel).2.1
          = ((pySplitWs (gtToSpace sel)).map
              (fun part => countCh '.' part + countCh '[' part)).sum) ∧
    calcSpec "[href]" = (0, 1, 0) ∧
    (∀ (tag eid : String) (classes : List String), tag ≠ "[href]" →
        matchesSimpleSelector "[href]" tag eid classes = false) ∧
    (∀ (rules : Rules) (stack : Stack) (tag : String) (attrs attrs' : Attrs),
        attrsGet attrs "id" = attrsGet attrs' "id" →
        attrsGet attrs "class" = attrsGet attrs' "class" →
          matchingRules rules (stack ++ [elemOf tag attrs])
            = matchingRules rules (stack ++ [elemOf tag attrs'])) := by
  refine ⟨?_, by decide, ?_, ?_⟩
  · intro sel h
    rw [calcSpec, if_neg h]
    exact calcSpecNoComma_classCount sel
  · intro tag eid classes h
    show decide ("[href]" = tag) = false
    simp
    exact fun hh => h hh.symm
  · intro rules stack tag attrs attrs' hid hcls
    have he : elemOf tag attrs = elemOf tag attrs' := by
      simp [elemOf, hid, hcls]
    rw [he]

/-- Witness for C7 at a concrete comma-free selector and element. -/
theorem c7_attribute_selector_asymmetry_witness :
    (calcSpec "a[href]").2.1 = 1 ∧
    matchesSimpleSelector "[href]" "a" "" [] = false := by
  constructor
  · exact (c7_attribute_selector_asymmetry.1 "a[href]" (by decide)).trans (by decide)
  · exact c7_attribute_selector_asymmetry.2.2.1 "a" "" [] (by decide)

/-! ## Claim C3: descendant vs child combinator semantics -/

/-- A single trailing descendant pair scans the remaining ancestors,
nearest first, for any match. -/
theorem chainLoop_single_desc (p : String) (ancs : List Elem) :
    chainLoop [(p, ' ')] ancs
      = ancs.any (fun e => matchesSimpleSelector p e.1 e.2.1 e.2.2) := by
  induction ancs with
  | nil => rfl
  | cons e above ih =>
    by_cases h : matchesSimpleSelector p e.1 e.2.1 e.2.2 = true <;>
      simp [chainLoop, h, ih]

/-- A single trailing child pair must match the next ancestor exactly. -/
theorem chainLoop_single_child (p : String) (ancs : List Elem) :
    chainLoop [(p, '>')] ancs
      = (match ancs.head? with
         | none => false
         | some e => matchesSimpleSelector p e.1 e.2.1 e.2.2) := by
  cases ancs with
  | nil => rfl
  | cons e above =>
    by_cases h : matchesSimpleSelector p e.1 e.2.1 e.2.2 = true <;>
      simp [chainLoop, h]

/-- `.child` as a simple selector tests for the class `child`. -/
theorem matchesSimple_dotChild (t i : String) (cs : List String) :
    matchesSimpleSelector ".child" t i cs = cs.contains "child" := by
  show List.all ["child"] (fun c => cs.contains c) = cs.contains "child"
  simp

/-- `.parent` as a simple selector tests for the class `parent`. -/
theorem matchesSimple_dotParent (t i : String) (cs : List String) :
    matchesSimpleSelector ".parent" t i cs = cs.contains "parent" := by
  show List.all ["parent"] (fun c => cs.contains c) = cs.contains "parent"
  simp

/-- C3: a space-separated chain matches the current element exactly when
its rightmost simple selector matches the current element and the walk of
the remaining selectors succeeds against strictly higher stack entries.
In the backward walk a child combinator `>` consumes exactly one stack
level (it must match the next entry up), while a descendant combinator
drops non-matching ancestors up to the *nearest* match and commits to it
(scan without backtracking), failing on stack exhaustion.  Consequently
`.parent .child` accepts an ancestor bearing `parent` at *any* height and
`.parent > .child` only the *immediate* parent; and on the claim's
concrete markup `<div class="parent"><span><a class="child">` the
descendant form matches the anchor while the child form does not. -/
theorem c3_descendant_vs_child :
    (∀ (p : String) (rest : List (String × Char)) (ancs : List Elem),
        chainLoop ((p, '>') :: rest) ancs
          = (match ancs with
             | [] => false
             | e :: above =>
               matchesSimpleSelector p e.1 e.2.1 e.2.2 && chainLoop rest above)) ∧
    (∀ (p : String) (rest : List (String × Char)) (ancs : List Elem),
        chainLoop ((p, ' ') :: rest) ancs
          = (match ancs.dropWhile
                (fun e => ! matchesSimpleSelector p e.1 e.2.1 e.2.2) with
             | [] => false
             | _ :: above => chainLoop rest above)) ∧
    (∀ (rest : Stack) (e : Elem),
        selectorMatches ".parent .child" (rest ++ [e])
          = (e.2.2.contains "child" &&
             rest.any (fun a => a.2.2.contains "parent"))) ∧
    (∀ (rest : Stack) (e : Elem),
        selectorMatches ".parent > .child" (rest ++ [e])
          = (e.2.2.contains "child" &&
             (match rest.getLast? with
              | none => false
              | some pa => pa.2.2.contains "parent"))) ∧
    selectorMatches ".parent .child"
        [("div", "", ["parent"]), ("span", "", []), ("a", "", ["child"])] = true ∧
    selectorMatches ".parent > .child"
        [("div", "", ["parent"]), ("span", "", []), ("a", "", ["child"])] = false := by
  refine ⟨?_, ?_, ?_, ?_, by decide, by decide⟩
  · intro p rest ancs
    cases ancs with
    | nil => rfl
    | cons e above =>
      by_cases h : matchesSimpleSelector p e.1 e.2.1 e.2.2 = true <;>
        simp [chainLoop, h]
  · intro p rest ancs
    induction ancs with
    | nil => rfl
    | cons e above ih =>
      by_cases h : matchesSimpleSelector p e.1 e.2.1 e.2.2 = true <;>
        simp [chainLoop, List.dropWhile_cons, h, ih]
  · intro rest e
    show matchesDescendantSelector ".parent .child" (rest ++ [e]) = _
    rw [matchesDescendantSelector]
    have hcp : parseChain ".parent .child" = ⟨[".parent", ".child"], []⟩ := by decide
    rw [hcp]
    cases rest with
    | nil => simp
    | cons r rs =>
      have hlen : ¬ ((⟨[".parent", ".child"], []⟩ : ChainParse).parts.length
          > ((r :: rs) ++ [e]).length) := by
        simp
      rw [if_neg hlen, List.getLast?_concat]
      show (if matchesSimpleSelector ".child" e.1 e.2.1 e.2.2 = true then
              chainLoop (chainPairs [".parent", ".child"] []) ((r :: rs) ++ [e]).dropLast.reverse
            else false) = _
      have hpairs : chainPairs [".parent", ".child"] [] = [(".parent", ' ')] := by decide
      rw [matchesSimple_dotChild, hpairs, List.dropLast_concat, chainLoop_single_desc]
      simp only [matchesSimple_dotParent, List.any_reverse]
      cases hc : e.2.2.contains "child" <;> simp [hc]
  · intro rest e
    show matchesDescendantSelector ".parent > .child" (rest ++ [e]) = _
    rw [matchesDescendantSelector]
    have hcp : parseChain ".parent > .child" = ⟨[".parent", ".child"], ['>']⟩ := by decide
    rw [hcp]
    cases rest with
    | nil => simp
    | cons r rs =>
      have hlen : ¬ ((⟨[".parent", ".child"], ['>']⟩ : ChainParse).parts.length
          > ((r :: rs) ++ [e]).length) := by
        simp
      rw [if_neg hlen, List.getLast?_concat]
      show (if matchesSimpleSelector ".child" e.1 e.2.1 e.2.2 = true then
              chainLoop (chainPairs [".parent", ".child"] ['>'])
                ((r :: rs) ++ [e]).dropLast.reverse
            else false) = _
      have hpairs : chainPairs [".parent", ".child"] ['>'] = [(".parent", '>')] := by decide
      rw [matchesSimple_dotChild, hpairs, List.dropLast_concat, chainLoop_single_child,
        List.head?_reverse]
      simp only [matchesSimple_dotParent]
      cases hc : e.2.2.contains "child" <;> simp [hc]

/-! ## Claim C1: inline style wins the merge -/

theorem firstSome_eq_none_iff (f : Decls → Option String) (l : List Decls) :
    firstSome f l = none ↔ ∀ x ∈ l, f x = none := by
  induction l with
  | nil => simp [firstSome]
  | cons e l ih => cases hf : f e <;> simp [firstSome, hf, oor, ih]

theorem dlookup_foldl_isSome (p : String) (ds : List Decls) (e : Decls)
    (he : e ∈ ds) (hp : p ∈ e.map Prod.fst) :
    (dlookup p (ds.foldl dictUpdate [])).isSome = true := by
  rw [dlookup_foldl_dictUpdate]
  have hl : lookupLast e p ≠ none := by
    intro hn
    rw [lookupLast, ← Option.not_isSome_iff_eq_none] at hn
    exact hn ((dlookup_isSome_iff p e.reverse).mpr (by simpa using hp))
  cases hfs : firstSome (fun d => lookupLast d p) ds.reverse with
  | some w => simp [oor]
  | none =>
    exact absurd ((firstSome_eq_none_iff _ _).mp hfs e (by simpa using he)) hl

theorem nodupKeys_parseStyleDecls (s : String) :
    ((parseStyleDecls s).map Prod.fst).Nodup := by
  unfold parseStyleDecls
  generalize pySplitCh ';' s = l
  suffices h : ∀ (l : List String) (acc : Decls), (acc.map Prod.fst).Nodup →
      ((l.foldl
        (fun acc decl =>
          let decl := pyStrip decl
          if hasCh ':' decl then
            let pv := pySplitFirst ':' decl
            dictInsert acc (pyStrip pv.1) (pyStrip pv.2)
          else acc) acc).map Prod.fst).Nodup by
    exact h l [] (by simp)
  intro l
  induction l with
  | nil => intro acc h; simpa
  | cons x l ih =>
    intro acc h
    rw [List.foldl_cons]
    apply ih
    dsimp only
    split
    · exact nodupKeys_dictInsert _ _ _ h
    · exact h

theorem attrsGet_rebuildAttrs_style (attrs : Attrs) (m : String)
    (h : (attrsGet attrs "style").isSome = true) :
    attrsGet (rebuildAttrs attrs m) "style" = some m := by
  unfold rebuildAttrs
  have hmem : "style" ∈ attrs.map Prod.fst := by
    have := (dlookup_isSome_iff "style" attrs.reverse).mp (by simpa [attrsGet] using h)
    simpa using this
  have hany : attrs.any (fun p => p.1 = "style") = true := by
    rw [List.any_eq_true]
    obtain ⟨q, hq, hq1⟩ := List.mem_map.mp hmem
    exact ⟨q, hq, by simp [hq1]⟩
  rw [if_pos hany]
  show dlookup "style" (attrs.map fun p => if p.1 = "style" then (p.1, m) else p).reverse = _
  rw [← List.map_reverse, dlookup_mapReplace]
  simp only [if_pos rfl]
  have : (dlookup "style" attrs.reverse).isSome = true := by simpa [attrsGet] using h
  obtain ⟨w, hw⟩ := Option.isSome_iff_exists.mp this
  simp [hw]

/-- C1 (inline-wins invariant): for an element with a pre-existing inline
`style` attribute and at least one matching stylesheet rule setting
property `p` also set by the inline style, the merged style maps `p` to
the original inline value; stylesheet-derived properties not named in the
inline style keep their stylesheet value; no property appears twice in the
merged style; and the re-serialized tag carries exactly this merged style
as its `style` attribute. -/
theorem c1_inline_wins (rules : Rules) (stack : Stack) (tag : String) (attrs : Attrs)
    (existing p sel v : String) (d : Decls)
    (hstyle : attrsGet attrs "style" = some existing)
    (hrule : (sel, d) ∈ rules)
    (hmatch : selectorMatches sel (stack ++ [elemOf tag attrs]) = true)
    (hbind : p ∈ d.map Prod.fst)
    (hinl : dlookup p (parseStyleDecls existing) = some v) :
    dlookup p (mergeStylesDict existing
        (applicableStyles rules (stack ++ [elemOf tag attrs]))) = some v ∧
    (∀ q w,
        dlookup q (applicableStyles rules (stack ++ [elemOf tag attrs])) = some w →
        dlookup q (parseStyleDecls existing) = none →
        dlookup q (mergeStylesDict existing
          (applicableStyles rules (stack ++ [elemOf tag attrs]))) = some w) ∧
    ((mergeStylesDict existing
        (applicableStyles rules (stack ++ [elemOf tag attrs]))).map Prod.fst).Nodup ∧
    attrsGet (starttagResult rules stack tag attrs).2 "style"
      = some (mergeStyles existing
          (applicableStyles rules (stack ++ [elemOf tag attrs]))) := by
  set stack' := stack ++ [elemOf tag attrs] with hstack
  have hexnodup := nodupKeys_parseStyleDecls existing
  have hm : (calcSpec sel, sel, d) ∈ matchingRules rules stack' := by
    rw [matchingRules, List.mem_filterMap]
    exact ⟨(sel, d), hrule, by simp [hmatch]⟩
  have hms : (calcSpec sel, sel, d) ∈ List.insertionSort matchLe (matchingRules rules stack') := by
    exact ((List.perm_insertionSort matchLe _).mem_iff).mpr hm
  have hdm : d ∈ (List.insertionSort matchLe (matchingRules rules stack')).map
      (fun m => m.2.2) :=
    List.mem_map.mpr ⟨_, hms, rfl⟩
  have happl : (dlookup p (applicableStyles rules stack')).isSome = true :=
    dlookup_foldl_isSome p _ d hdm hbind
  refine ⟨?_, ?_, ?_, ?_⟩
  · rw [mergeStylesDict, dlookup_dictUpdate,
      nodupKeys_lookupLast_eq _ hexnodup, hinl]
    rfl
  · intro q w hq hqnone
    rw [mergeStylesDict, dlookup_dictUpdate,
      nodupKeys_lookupLast_eq _ hexnodup, hqnone, oor_none_left, hq]
  · exact nodupKeys_dictUpdate _ _ (nodupKeys_foldl_dictUpdate [] _ (by simp))
  · have hne : applicableStyles rules stack' ≠ [] := by
      intro h0
      rw [h0] at happl
      simp [dlookup] at happl
    rw [starttagResult]
    rw [← hstack]
    rw [if_pos hne, hstyle]
    exact attrsGet_rebuildAttrs_style attrs _ (by simp [hstyle])

/-- Witness for C1: the design document's scenario
`#box { border: 1px solid; }` with `<div id="box" style="border: 2px dashed;">`:
the merged style keeps the inline `border: 2px dashed` and the emitted
`style` attribute is exactly that. -/
theorem c1_inline_wins_witness :
    dlookup "border"
        (mergeStylesDict "border: 2px dashed;"
          (applicableStyles [("#box", [("border", "1px solid")])]
            ([] ++ [elemOf "div" [("id", "box"), ("style", "border: 2px dashed;")]])))
      = some "2px dashed" ∧
    attrsGet
        (starttagResult [("#box", [("border", "1px solid")])] []
          "div" [("id", "box"), ("style", "border: 2px dashed;")]).2 "style"
      = some (mergeStyles "border: 2px dashed;"
          (applicableStyles [("#box", [("border", "1px solid")])]
            ([] ++ [elemOf "div" [("id", "box"), ("style", "border: 2px dashed;")]]))) := by
  have h := c1_inline_wins [("#box", [("border", "1px solid")])] []
    "div" [("id", "box"), ("style", "border: 2px dashed;")]
    "border: 2px dashed;" "border" "#box" "2px dashed" [("border", "1px solid")]
    (by decide) (by decide) (by decide) (by decide) (by decide)
  exact ⟨h.1, h.2.2.2⟩

/-! ## Claim C2: cascade resolution order -/

theorem firstSome_append (f : Decls → Option String) (l1 l2 : List Decls) :
    firstSome f (l1 ++ l2) = oor (firstSome f l1) (firstSome f l2) := by
  induction l1 with
  | nil => simp [firstSome, oor]
  | cons x l1 ih => simp [firstSome, ih, oor_assoc]

theorem specLtB_iff (a b : SpecT) :
    specLtB a b = true ↔
      (a.1 < b.1 ∨ (a.1 = b.1 ∧ (a.2.1 < b.2.1 ∨ (a.2.1 = b.2.1 ∧ a.2.2 < b.2.2)))) := by
  obtain ⟨a1, a2, a3⟩ := a
  obtain ⟨b1, b2, b3⟩ := b
  unfold specLtB
  by_cases e1 : a1 = b1 <;> by_cases e2 : a2 = b2 <;> simp [e1, e2] <;> omega

theorem enumLexLe_iff (a b : Nat × MatchT) :
    enumLexLe a b ↔ (specLtB a.2.1 b.2.1 = true ∨ (a.2.1 = b.2.1 ∧ a.1 ≤ b.1)) := by
  unfold enumLexLe
  by_cases h : a.2.1 = b.2.1 <;> simp [h]

theorem posKeyLt_iff (a b : SpecT × Nat) :
    posKeyLt a b ↔ (specLtB a.1 b.1 = true ∨ (a.1 = b.1 ∧ a.2 < b.2)) := by
  unfold posKeyLt
  by_cases h : a.1 = b.1 <;> simp [h]

theorem specT_eq_iff (a b : SpecT) :
    a = b ↔ (a.1 = b.1 ∧ a.2.1 = b.2.1 ∧ a.2.2 = b.2.2) := by
  obtain ⟨a1, a2, a3⟩ := a
  obtain ⟨b1, b2, b3⟩ := b
  simp [Prod.ext_iff]

instance : IsTotal (Nat × MatchT) enumLexLe :=
  ⟨fun a b => by
    rw [enumLexLe_iff, enumLexLe_iff, specLtB_iff, specLtB_iff, specT_eq_iff, specT_eq_iff]
    omega⟩

instance : IsTrans (Nat × MatchT) enumLexLe :=
  ⟨fun a b c => by
    rw [enumLexLe_iff, enumLexLe_iff, enumLexLe_iff, specLtB_iff, specLtB_iff, specLtB_iff,
      specT_eq_iff, specT_eq_iff, specT_eq_iff]
    omega⟩

/-- On entries whose position is below every position in the list, the
specificity-only comparison and its position-tie-broken refinement insert
at the same place (this is how a stable sort by specificity realizes the
lexicographic (specificity, position) order). -/
theorem orderedInsert_enumLe_eq_lex (x : Nat × MatchT) (L : List (Nat × MatchT))
    (hx : ∀ y ∈ L, x.1 < y.1) :
    L.orderedInsert enumLe x = L.orderedInsert enumLexLe x := by
  induction L with
  | nil => rfl
  | cons b L ih =>
    have hxb : x.1 < b.1 := hx b (by simp)
    have hiff : enumLe x b ↔ enumLexLe x b := by
      unfold enumLe enumLexLe specLeB
      have hle : decide (x.1 ≤ b.1) = true := by simp [Nat.le_of_lt hxb]
      simp [hle]
    by_cases h : enumLe x b
    · rw [List.orderedInsert, List.orderedInsert, if_pos h, if_pos (hiff.mp h)]
    · rw [List.orderedInsert, List.orderedInsert, if_neg h,
        if_neg (fun hh => h (hiff.mpr hh)),
        ih (fun y hy => hx y (List.mem_cons_of_mem _ hy))]

theorem insertionSort_enumLe_eq_lex (L : List (Nat × MatchT))
    (h : L.Pairwise (fun a b => a.1 < b.1)) :
    L.insertionSort enumLe = L.insertionSort enumLexLe := by
  induction L with
  | nil => rfl
  | cons x L ih =>
    rw [List.insertionSort, List.insertionSort, ih (List.Pairwise.of_cons h)]
    apply orderedInsert_enumLe_eq_lex
    intro y hy
    exact (List.pairwise_cons.mp h).1 y ((List.perm_insertionSort enumLexLe L).mem_iff.mp hy)

theorem enumFrom_fst_lt (n : Nat) (l : List MatchT) :
    (List.enumFrom n l).Pairwise (fun a b => a.1 < b.1) := by
  induction l generalizing n with
  | nil => simp
  | cons x l ih =>
    refine List.Pairwise.cons ?_ (ih (n + 1))
    intro y hy
    exact Nat.lt_of_lt_of_le (Nat.lt_succ_self n) (List.le_fst_of_mem_enumFrom hy)

theorem matched_decls_mem (rules : Rules) (stack : Stack) (m : MatchT)
    (h : m ∈ matchingRules rules stack) : (m.2.1, m.2.2) ∈ rules := by
  rw [matchingRules, List.mem_filterMap] at h
  obtain ⟨r, hr, hf⟩ := h
  by_cases hsel : selectorMatches r.1 stack = true
  · rw [if_pos hsel] at hf
    cases hf
    exact hr
  · rw [if_neg hsel] at hf
    cases hf

/-- C2 (cascade resolution order): for every element context and CSS
property, the stylesheet-derived value in the computed style is the one
from the matching rule that is maximal under the ordering "specificity
triple compared lexicographically, ties broken by later source position".
The rule list is assumed well-formed (each declaration dict has distinct
keys, as `parse_css` produces). -/
theorem c2_cascade_order (rules : Rules) (stack : Stack) (p v : String)
    (i : Nat) (s : SpecT) (sel : String) (d : Decls)
    (hwf : ∀ r ∈ rules, ((r.2 : Decls).map Prod.fst).Nodup)
    (hmem : (i, (s, sel, d)) ∈ (matchingRules rules stack).enum)
    (hv : dlookup p d = some v)
    (hmax : ∀ y ∈ (matchingRules rules stack).enum,
        (dlookup p y.2.2.2).isSome = true → y ≠ (i, (s, sel, d)) →
          posKeyLt (y.2.1, y.1) (s, i)) :
    dlookup p (applicableStyles rules stack) = some v := by
  classical
  set M := matchingRules rules stack with hM
  have henum : M.enum.Pairwise (fun a b => a.1 < b.1) := enumFrom_fst_lt 0 M
  have hpair : List.insertionSort matchLe M
      = (M.enum.insertionSort enumLexLe).map Prod.snd := by
    rw [← insertionSort_enumLe_eq_lex M.enum henum,
      List.map_insertionSort enumLe matchLe Prod.snd M.enum (fun a _ b _ => Iff.rfl),
      List.enum_map_snd]
  set S := M.enum.insertionSort enumLexLe with hS
  have hx : (i, (s, sel, d)) ∈ S :=
    ((List.perm_insertionSort enumLexLe M.enum).mem_iff).mpr hmem
  obtain ⟨P, Q, hPQ⟩ := List.append_of_mem hx
  have hsorted : S.Sorted enumLexLe := List.sorted_insertionSort enumLexLe M.enum
  have hnodupS : S.Nodup := by
    refine ((List.perm_insertionSort enumLexLe M.enum).nodup_iff).mpr ?_
    exact (enumFrom_fst_lt 0 M).imp (fun h => by
      intro he
      rw [he] at h
      exact Nat.lt_irrefl _ h)
  have hxQ : (i, (s, sel, d)) ∉ Q := by
    rw [hPQ] at hnodupS
    have := (List.nodup_append.mp hnodupS).2.1
    exact (List.nodup_cons.mp this).1
  have hQle : ∀ y ∈ Q, enumLexLe (i, (s, sel, d)) y := by
    rw [hPQ] at hsorted
    have := (List.pairwise_append.mp hsorted).2.1
    exact (List.pairwise_cons.mp this).1
  have hQnone : ∀ y ∈ Q, lookupLast y.2.2.2 p = none := by
    intro y hy
    by_cases hb : (dlookup p y.2.2.2).isSome = true
    · exfalso
      have hyS : y ∈ S := by
        rw [hPQ]
        exact List.mem_append.mpr (Or.inr (List.mem_cons_of_mem _ hy))
      rw [hS] at hyS
      have hymem : y ∈ M.enum :=
        ((List.perm_insertionSort enumLexLe M.enum).mem_iff).mp hyS
      have hyne : y ≠ (i, (s, sel, d)) := fun he => hxQ (he ▸ hy)
      have h1 := hmax y hymem hb hyne
      have h2 := hQle y hy
      rw [posKeyLt_iff] at h1
      rw [enumLexLe_iff] at h2
      rw [specLtB_iff] at h1 h2
      rw [specT_eq_iff] at h1 h2
      simp only at h1 h2
      omega
    · rw [lookupLast, ← Option.not_isSome_iff_eq_none]
      intro hs
      exact hb (by
        rw [dlookup_isSome_iff] at hs ⊢
        simpa using hs)
  have hdnodup : (d.map Prod.fst).Nodup := by
    have hsm : (s, sel, d) ∈ M := by
      have h1 : (i, (s, sel, d)).2 ∈ M.enum.map Prod.snd :=
        List.mem_map_of_mem Prod.snd hmem
      rwa [List.enum_map_snd] at h1
    exact hwf (sel, d) (matched_decls_mem rules stack _ hsm)
  rw [applicableStyles, ← hM, hpair, hPQ]
  rw [List.map_append, List.map_append, List.map_cons, List.map_cons]
  rw [dlookup_foldl_dictUpdate]
  rw [List.reverse_append, List.reverse_cons, List.append_assoc, firstSome_append,
    firstSome_append]
  have hQrevnone : firstSome (fun e => lookupLast e p)
      ((List.map (fun m => m.2.2) (List.map Prod.snd Q)).reverse) = none := by
    rw [firstSome_eq_none_iff]
    intro x hxm
    rw [List.mem_reverse, List.map_map, List.mem_map] at hxm
    obtain ⟨y, hy, hyx⟩ := hxm
    rw [← hyx]
    exact hQnone y hy
  rw [hQrevnone, oor_none_left]
  have hone : firstSome (fun e => lookupLast e p) [(i, s, sel, d).2.2.2] = some v := by
    show oor (lookupLast d p) none = some v
    rw [nodupKeys_lookupLast_eq d hdnodup p, hv]
    rfl
  rw [hone]
  rfl

/-- Witness for C2: an `#id` rule beats a `.cls` rule on
`<div id="id" class="cls">` in either declaration order, and of two
equal-specificity class rules the later-declared one wins. -/
theorem c2_cascade_order_witness :
    dlookup "color"
        (applicableStyles [(".cls", [("color", "blue")]), ("#id", [("color", "red")])]
          [("div", "id", ["cls"])]) = some "red" ∧
    dlookup "color"
        (applicableStyles [("#id", [("color", "red")]), (".cls", [("color", "blue")])]
          [("div", "id", ["cls"])]) = some "red" ∧
    dlookup "color"
        (applicableStyles [(".a", [("color", "red")]), (".b", [("color", "blue")])]
          [("div", "", ["a", "b"])]) = some "blue" := by
  refine ⟨?_, ?_, ?_⟩
  · exact c2_cascade_order [(".cls", [("color", "blue")]), ("#id", [("color", "red")])]
      [("div", "id", ["cls"])] "color" "red" 1 (1, 0, 0) "#id" [("color", "red")]
      (by decide) (by decide) (by decide) (by decide)
  · exact c2_cascade_order [("#id", [("color", "red")]), (".cls", [("color", "blue")])]
      [("div", "id", ["cls"])] "color" "red" 0 (1, 0, 0) "#id" [("color", "red")]
      (by decide) (by decide) (by decide) (by decide)
  · exact c2_cascade_order [(".a", [("color", "red")]), (".b", [("color", "blue")])]
      [("div", "", ["a", "b"])] "color" "blue" 1 (0, 1, 0) ".b" [("color", "blue")]
      (by decide) (by decide) (by decide) (by decide)

/-! ## Claim C9: idempotence on already-inlined output -/

theorem join_foldl (l : List String) (a : String) :
    l.foldl (fun r s => r ++ s) a = a ++ String.join l := by
  induction l generalizing a with
  | nil => exact (String.append_empty a).symm
  | cons x l ih =>
    rw [List.foldl_cons, ih]
    have hx : String.join (x :: l) = x ++ String.join l := by
      show l.foldl (fun r s => r ++ s) ("" ++ x) = x ++ String.join l
      rw [ih]
      rfl
    rw [hx, String.append_assoc]

theorem stringJoin_cons (a : String) (l : List String) :
    String.join (a :: l) = a ++ String.join l := by
  show (a :: l).foldl (fun r s => r ++ s) "" = a ++ String.join l
  rw [List.foldl_cons, join_foldl]
  rfl

theorem stringJoin_append (l1 l2 : List String) :
    String.join (l1 ++ l2) = String.join l1 ++ String.join l2 := by
  induction l1 with
  | nil => rfl
  | cons x l1 ih => rw [List.cons_append, stringJoin_cons, stringJoin_cons, ih,
      String.append_assoc]

theorem replCh_cons (c : Char) (rep : List Char) (x : Char) (l : List Char) :
    replCh c rep (x :: l) = (if x = c then rep else [x]) ++ replCh c rep l := by
  simp [replCh]

theorem replCh_append (c : Char) (rep : List Char) (l1 l2 : List Char) :
    replCh c rep (l1 ++ l2) = replCh c rep l1 ++ replCh c rep l2 := by
  simp [replCh]

theorem escapeList_cons (c : Char) (l : List Char) :
    escapeList (c :: l) = escChar c ++ escapeList l := by
  show replCh '>' _ (replCh '<' _ (replCh '&' _ (c :: l))) = _
  rw [replCh_cons, replCh_append, replCh_append]
  by_cases h1 : c = '&'
  · subst h1
    rfl
  · by_cases h2 : c = '<'
    · subst h2
      rfl
    · by_cases h3 : c = '>'
      · subst h3
        rfl
      · simp [replCh, escChar, h1, h2, h3, escapeList]

theorem escapeList_nil : escapeList [] = [] := rfl

theorem tokText_amp (rest : List Char) :
    tokText (("&amp;").data ++ rest) = .entityRef "amp" :: tokText rest := by
  show tokText ('&' :: (("amp;").data ++ rest)) = _
  rw [tokText,
    if_pos ⟨rfl, by rw [show (4 : Nat) = ("amp;").data.length from rfl, List.take_left]⟩]
  congr 1

theorem tokText_lt (rest : List Char) :
    tokText (("&lt;").data ++ rest) = .entityRef "lt" :: tokText rest := by
  show tokText ('&' :: (("lt;").data ++ rest)) = _
  rw [tokText]
  rw [if_neg (fun hcon => by
    have h := hcon.2
    rw [show ((("lt;").data ++ rest).take 4) = 'l' :: ((("t;").data ++ rest).take 3) from rfl]
      at h
    exact absurd (List.cons.inj h).1 (by decide))]
  rw [if_pos ⟨rfl, by rw [show (3 : Nat) = ("lt;").data.length from rfl, List.take_left]⟩]
  congr 1

theorem tokText_gt (rest : List Char) :
    tokText (("&gt;").data ++ rest) = .entityRef "gt" :: tokText rest := by
  show tokText ('&' :: (("gt;").data ++ rest)) = _
  rw [tokText]
  rw [if_neg (fun hcon => by
    have h := hcon.2
    rw [show ((("gt;").data ++ rest).take 4) = 'g' :: ((("t;").data ++ rest).take 3) from rfl]
      at h
    exact absurd (List.cons.inj h).1 (by decide))]
  rw [if_neg (fun hcon => by
    have h := hcon.2
    rw [show ((("gt;").data ++ rest).take 3) = 'g' :: ((("t;").data ++ rest).take 2) from rfl]
      at h
    exact absurd (List.cons.inj h).1 (by decide))]
  rw [if_pos ⟨rfl, by rw [show (3 : Nat) = ("gt;").data.length from rfl, List.take_left]⟩]
  congr 1

theorem tokText_other (c : Char) (rest : List Char) (h1 : ¬ c = '&') :
    tokText (c :: rest) = .dataText (String.mk [c]) :: tokText rest := by
  rw [tokText]
  rw [if_neg (fun hh => h1 hh.1), if_neg (fun hh => h1 hh.1), if_neg (fun hh => h1 hh.1)]

/-- Escaped text re-tokenizes to events that render back to exactly the
escaped text, and every data event among them is free of `&`, `<`, `>`. -/
theorem tokText_escape (l : List Char) :
    String.join ((tokText (escapeList l)).map renderSource) = String.mk (escapeList l) ∧
    ∀ e ∈ tokText (escapeList l), cleanEvent e := by
  induction l with
  | nil =>
    refine ⟨by rw [escapeList_nil, tokText]; rfl, ?_⟩
    intro e he
    rw [escapeList_nil, tokText] at he
    simp at he
  | cons c l ih =>
    rw [escapeList_cons]
    by_cases h1 : c = '&'
    · subst h1
      rw [show escChar '&' = ("&amp;").data from rfl, tokText_amp]
      refine ⟨?_, ?_⟩
      · rw [List.map_cons, stringJoin_cons, ih.1]
        rfl
      · intro e he
        rcases List.mem_cons.mp he with he | he
        · subst he; trivial
        · exact ih.2 e he
    · by_cases h2 : c = '<'
      · subst h2
        rw [show escChar '<' = ("&lt;").data from rfl, tokText_lt]
        refine ⟨?_, ?_⟩
        · rw [List.map_cons, stringJoin_cons, ih.1]
          rfl
        · intro e he
          rcases List.mem_cons.mp he with he | he
          · subst he; trivial
          · exact ih.2 e he
      · by_cases h3 : c = '>'
        · subst h3
          rw [show escChar '>' = ("&gt;").data from rfl, tokText_gt]
          refine ⟨?_, ?_⟩
          · rw [List.map_cons, stringJoin_cons, ih.1]
            rfl
          · intro e he
            rcases List.mem_cons.mp he with he | he
            · subst he; trivial
            · exact ih.2 e he
        · rw [show escChar c = [c] from by simp [escChar, h1, h2, h3]]
          rw [show ([c] ++ escapeList l) = c :: escapeList l from rfl, tokText_other c _ h1]
          refine ⟨?_, ?_⟩
          · rw [List.map_cons, stringJoin_cons, ih.1]
            rfl
          · intro e he
            rcases List.mem_cons.mp he with he | he
            · subst he
              show hasCh '&' (String.mk [c]) = false ∧ hasCh '<' (String.mk [c]) = false ∧
                hasCh '>' (String.mk [c]) = false
              refine ⟨?_, ?_, ?_⟩ <;>
                simp [hasCh, List.contains, h1, h2, h3] <;>
                first
                | exact fun hh => h1 hh.symm
                | exact fun hh => h2 hh.symm
                | exact fun hh => h3 hh.symm
            · exact ih.2 e he

theorem attrsGet_rebuildAttrs_ne (attrs : Attrs) (m k : String) (h : ¬ k = "style") :
    attrsGet (rebuildAttrs attrs m) k = attrsGet attrs k := by
  unfold rebuildAttrs attrsGet
  split
  · rw [← List.map_reverse, dlookup_mapReplace, if_neg h]
  · rw [List.reverse_append]
    show dlookup k (("style", m) :: attrs.reverse) = _
    simp [dlookup, show ¬ "style" = k from fun hh => h hh.symm]

theorem isStylesheetLink_starttagResult (rules : Rules) (stack : Stack)
    (tag : String) (attrs : Attrs) :
    isStylesheetLink tag (starttagResult rules stack tag attrs).2
      = isStylesheetLink tag attrs := by
  simp only [starttagResult]
  split
  · simp only [isStylesheetLink]
    rw [attrsGet_rebuildAttrs_ne _ _ _ (by decide)]
  · rfl

theorem stepEvents_stack_eq (rules : Rules) (stack : Stack) (e : HEvent) :
    (step rules stack e).1 = (stepEvents rules stack e).1 := by
  cases e <;> first
    | rfl
    | (simp only [step, stepEvents]; split <;> rfl)

theorem step_chunks_renderSource (rules : Rules) (stack : Stack) (e : HEvent) :
    String.join (step rules stack e).2
      = String.join (((stepEvents rules stack e).2).map renderSource) := by
  cases e with
  | dataText s =>
    show String.join [escapeData s]
      = String.join ((tokText (escapeList s.data)).map renderSource)
    rw [(tokText_escape s.data).1]
    rfl
  | startTag tag attrs => simp only [step, stepEvents]; split <;> rfl
  | endTag tag => simp only [step, stepEvents]; split <;> rfl
  | startEndTag tag attrs => simp only [step, stepEvents]; split <;> rfl
  | entityRef n => rfl
  | charRef n => rfl
  | commentEv s => rfl
  | declEv s => rfl

theorem stepEvents_clean (rules : Rules) (stack : Stack) (e : HEvent) :
    ∀ x ∈ (stepEvents rules stack e).2, cleanEvent x := by
  cases e with
  | startTag tag attrs =>
    simp only [stepEvents]
    split
    · exact fun x hx => absurd hx (List.not_mem_nil x)
    · next hss =>
      intro x hx
      have hs := List.mem_singleton.mp hx
      subst hs
      show ¬ isStylesheetLink tag (starttagResult rules stack tag attrs).2 = true
      rw [isStylesheetLink_starttagResult]
      exact hss
  | endTag tag =>
    simp only [stepEvents]
    split
    · exact fun x hx => absurd hx (List.not_mem_nil x)
    · next htag =>
      intro x hx
      have hs := List.mem_singleton.mp hx
      subst hs
      exact htag
  | startEndTag tag attrs =>
    simp only [stepEvents]
    split
    · exact fun x hx => absurd hx (List.not_mem_nil x)
    · next hss =>
      intro x hx
      have hs := List.mem_singleton.mp hx
      subst hs
      exact hss
  | dataText s => exact (tokText_escape s.data).2
  | entityRef n =>
    intro x hx
    have hs := List.mem_singleton.mp hx
    subst hs
    trivial
  | charRef n =>
    intro x hx
    have hs := List.mem_singleton.mp hx
    subst hs
    trivial
  | commentEv s =>
    intro x hx
    have hs := List.mem_singleton.mp hx
    subst hs
    trivial
  | declEv s =>
    intro x hx
    have hs := List.mem_singleton.mp hx
    subst hs
    trivial

theorem runEventsFrom_clean (rules : Rules) (stack : Stack) (events : List HEvent) :
    ∀ x ∈ (runEventsFrom rules stack events).2, cleanEvent x := by
  induction events generalizing stack with
  | nil => intro x hx; simp [runEventsFrom] at hx
  | cons e es ih =>
    intro x hx
    have hx' : x ∈ (stepEvents rules stack e).2
        ++ (runEventsFrom rules (stepEvents rules stack e).1 es).2 := hx
    rcases List.mem_append.mp hx' with h | h
    · exact stepEvents_clean rules stack e x h
    · exact ih _ x h

theorem runFrom_renderSource (rules : Rules) (stack : Stack) (events : List HEvent) :
    (runFrom rules stack events).1 = (runEventsFrom rules stack events).1 ∧
    String.join (runFrom rules stack events).2
      = String.join (((runEventsFrom rules stack events).2).map renderSource) := by
  induction events generalizing stack with
  | nil => exact ⟨rfl, rfl⟩
  | cons e es ih =>
    have hst := stepEvents_stack_eq rules stack e
    constructor
    · show (runFrom rules (step rules stack e).1 es).1
        = (runEventsFrom rules (stepEvents rules stack e).1 es).1
      rw [hst]
      exact (ih _).1
    · show String.join ((step rules stack e).2 ++ (runFrom rules (step rules stack e).1 es).2)
        = String.join (((stepEvents rules stack e).2
            ++ (runEventsFrom rules (stepEvents rules stack e).1 es).2).map renderSource)
      rw [List.map_append, stringJoin_append, stringJoin_append,
        step_chunks_renderSource, hst, (ih _).2]

theorem escapeList_id (l : List Char) (h : ∀ c ∈ l, escChar c = [c]) :
    escapeList l = l := by
  induction l with
  | nil => rfl
  | cons c l ih =>
    rw [escapeList_cons, h c (by simp), ih (fun x hx => h x (by simp [hx]))]
    rfl

theorem escapeData_id (s : String) (h1 : hasCh '&' s = false) (h2 : hasCh '<' s = false)
    (h3 : hasCh '>' s = false) : escapeData s = s := by
  have hmem : ∀ c, hasCh c s = false → ∀ x ∈ s.data, ¬ x = c := by
    intro c hcf x hx he
    subst he
    rw [hasCh] at hcf
    have htrue : s.data.contains x = true := List.elem_iff.mpr hx
    rw [htrue] at hcf
    cases hcf
  show String.mk (escapeList s.data) = s
  rw [escapeList_id s.data (fun c hcm => by
    simp [escChar, hmem '&' h1 c hcm, hmem '<' h2 c hcm, hmem '>' h3 c hcm])]

/-- With an empty rule set, every clean event's output chunk is exactly
its own source text. -/
theorem step_empty_rules (stack : Stack) (e : HEvent) (hc : cleanEvent e) :
    (step [] stack e).2 = [renderSource e] := by
  cases e with
  | startTag tag attrs =>
    have hss : ¬ isStylesheetLink tag attrs = true := hc
    have hres : starttagResult [] stack tag attrs = (stack ++ [elemOf tag attrs], attrs) := by
      simp only [starttagResult]
      rw [if_neg (fun hne => hne rfl)]
    simp only [step, if_neg hss, hres]
    rfl
  | endTag tag =>
    have htag : tag ≠ "link" := hc
    simp [step, htag, renderSource]
  | startEndTag tag attrs =>
    have hss : ¬ isStylesheetLink tag attrs = true := hc
    simp only [step, if_neg hss]
    rfl
  | dataText s =>
    obtain ⟨h1, h2, h3⟩ := hc
    show [escapeData s] = [renderSource (.dataText s)]
    rw [escapeData_id s h1 h2 h3]
    rfl
  | entityRef n => rfl
  | charRef n => rfl
  | commentEv s => rfl
  | declEv s => rfl

theorem runFrom_empty_rules (stack : Stack) (events : List HEvent)
    (hc : ∀ e ∈ events, cleanEvent e) :
    (runFrom [] stack events).2 = events.map renderSource := by
  induction events generalizing stack with
  | nil => rfl
  | cons e es ih =>
    show (step [] stack e).2 ++ (runFrom [] (step [] stack e).1 es).2 = _
    rw [step_empty_rules stack e (hc e (by simp)),
      ih _ (fun x hx => hc x (by simp [hx]))]
    rfl

/-- C9 (idempotence on already-inlined output): re-running the engine with
an empty rule set on the structural events of a first run's output (the
first run leaves no stylesheet-link tags, no `</link>` tags, and only
escaped text) reproduces the first run's output text exactly:
`inline(inline(D, R), []) = inline(D, R)`. -/
theorem c9_idempotence (rules : Rules) (events : List HEvent) :
    inlineOutput [] (outputEvents rules events) = inlineOutput rules events := by
  rw [inlineOutput, inlineOutput, outputEvents]
  rw [runFrom_empty_rules [] _ (runEventsFrom_clean rules [] events)]
  exact ((runFrom_renderSource rules [] events).2).symm

end CssInline
